import Mathlib

/-!
Verification of the TempusCache storage engine (Krishna8167/TEMPUS-CACHE).

The repository ships `options.go` (the functional-options configuration
layer), a benchmark file and a README; the cache engine itself
(Entry, recency list, index, Set/Get/Delete/Stats/Stop, janitor sweep)
is described in detail by the specification. The engine definitions
below are therefore modelled from the spec; the two option constructors
`WithCleanupInterval` and `WithMaxEntries` are translated directly from
`src/options.go`.

Time instants and durations are modelled as `Int` (Go `time.Time` /
`time.Duration` are fixed-width integers; no arithmetic here can
realistically overflow and the spec speaks of abstract instants).
-/

namespace TempusCache

/-- Modelled from the spec: the stored unit, `{ key, value, expiresAt }`
where `expiresAt = None` means the entry never expires (spec section 3). -/
structure Entry (α : Type) where
  key : String
  value : α
  expiresAt : Option Int
deriving Repr, DecidableEq

/-- Modelled from the spec: the Cache aggregate (spec section 3). `ll` is the
recency list (head = most recently used), `index` is the set of keys
registered in the key-to-node Index (node references cannot be modelled
directly, so the Index is represented by its key list, kept in lockstep
with the entries of `ll` by every operation exactly as the spec describes
the paired updates). `maxEntries` and `interval` are the two configuration
fields that `src/options.go` writes; `janitor` records whether a live
janitor task exists. -/
@[ext]
structure Cache (α : Type) where
  index : List String
  ll : List (Entry α)
  maxEntries : Int
  interval : Int
  janitor : Bool
  hits : Nat
  misses : Nat
  evictions : Nat
deriving Repr, DecidableEq

variable {α : Type}

/-- Keys currently held by nodes of the recency list, head first. -/
def keys (c : Cache α) : List String :=
  c.ll.map (fun e => e.key)

/-- Modelled from the spec: `isExpired(entry, now)` is true iff
`entry.expiresAt` is set and `now >= entry.expiresAt` (spec section 4.2). -/
def isExpired (e : Entry α) (now : Int) : Bool :=
  match e.expiresAt with
  | none => false
  | some t => t ≤ now

/-- Modelled from the spec: `computeExpiry(now, ttl)` returns `None` if
`ttl <= 0` (never expires), else `now + ttl` (spec section 4.2). -/
def computeExpiry (now ttl : Int) : Option Int :=
  if ttl ≤ 0 then none else some (now + ttl)

/-- Look up the recency-list node for `k` (the Index maps a key to its
node; under the consistency invariant the Index holds `k` exactly when
such a node exists). -/
def findEntry (c : Cache α) (k : String) : Option (Entry α) :=
  c.ll.find? (fun e => e.key == k)

/-- Modelled from the spec: `remove(key)` unlinks the node for `key` and
deletes it from both structures if present; no-op otherwise
(spec section 4.1). -/
def removeBoth (c : Cache α) (k : String) : Cache α :=
  { c with ll := c.ll.filter (fun e => e.key != k),
           index := c.index.filter (fun s => s != k) }

/-- Modelled from the spec: evict via `removeTail()` and increment the
eviction counter — unlink the tail (least recently used) node, remove its
key from the Index; the empty case is a defensive no-op
(spec sections 4.1 and 4.3). -/
def evictLRU (c : Cache α) : Cache α :=
  match c.ll.getLast? with
  | none => c
  | some e =>
      { c with ll := c.ll.dropLast,
               index := c.index.filter (fun s => s != e.key),
               evictions := c.evictions + 1 }

/-- Modelled from the spec: `Set(key, value, ttl)` — if `key` exists,
update its value and expiry in place and touch it (move to head, no
eviction, size unchanged); else compute `expiresAt`, evict the tail when
`maxEntries > 0` and the structure is at capacity, then `insertFront`
(spec section 4.3). -/
def set (c : Cache α) (k : String) (v : α) (ttl now : Int) : Cache α :=
  let e : Entry α := ⟨k, v, computeExpiry now ttl⟩
  if (findEntry c k).isSome then
    { c with ll := e :: c.ll.filter (fun x => x.key != k) }
  else
    let c1 := if 0 < c.maxEntries ∧ c.maxEntries ≤ (c.ll.length : Int)
              then evictLRU c else c
    { c1 with ll := e :: c1.ll, index := k :: c1.index }

/-- Modelled from the spec: `Get(key)` — if absent, count a miss; if
present and expired, remove it (lazy expiration) and count a miss; else
touch it (move to head), count a hit and return the value
(spec section 4.3). -/
def get (c : Cache α) (k : String) (now : Int) : Option α × Cache α :=
  match findEntry c k with
  | none => (none, { c with misses := c.misses + 1 })
  | some e =>
      if isExpired e now then
        (none, { removeBoth c k with misses := c.misses + 1 })
      else
        (some e.value,
         { c with ll := e :: c.ll.filter (fun x => x.key != k),
                  hits := c.hits + 1 })

/-- Modelled from the spec: `Delete(key)` — remove via Index and recency
list if present; no-op, no error, if absent (spec section 4.3). -/
def delete (c : Cache α) (k : String) : Cache α :=
  removeBoth c k

/-- Keys of the entries that are expired at sweep time. -/
def expiredKeys (c : Cache α) (now : Int) : List String :=
  (c.ll.filter (fun e => isExpired e now)).map (fun e => e.key)

/-- Modelled from the spec: active expiration — a full scan of the recency
list removes every entry for which `isExpired` holds at sweep time
(spec section 4.2); each expired node is removed from both structures. -/
def sweep (c : Cache α) (now : Int) : Cache α :=
  (expiredKeys c now).foldl removeBoth c

/-- Modelled from the spec: `Stats()` returns the counter snapshot
(hits, misses, evictions) (spec section 4.3). -/
def stats (c : Cache α) : Nat × Nat × Nat :=
  (c.hits, c.misses, c.evictions)

/-- Modelled from the spec: `Stop()` terminates the janitor task if one is
running; idempotent, and the cache itself stays usable
(spec section 4.3). -/
def stop (c : Cache α) : Cache α :=
  { c with janitor := false }

/-- From `src/options.go`: `WithCleanupInterval(d)` returns an option that
sets `c.interval = d`. -/
def WithCleanupInterval (d : Int) : Cache α → Cache α :=
  fun c => { c with interval := d }

/-- From `src/options.go`: `WithMaxEntries(n)` returns an option that sets
`c.maxEntries = n`. -/
def WithMaxEntries (n : Int) : Cache α → Cache α :=
  fun c => { c with maxEntries := n }

/-- The zero-valued cache: empty structures, defaults `maxEntries = 0`
(unbounded) and `interval = 0` (janitor disabled), zero counters. -/
def emptyCache (α : Type) : Cache α :=
  ⟨[], [], 0, 0, false, 0, 0, 0⟩

/-- Modelled from the spec: `New(config)` applies the option functions to
the fresh cache and starts a janitor task exactly when the resulting
cleanup interval is positive (spec sections 4.4 and 6, and the behavior
documented on `WithCleanupInterval` in `src/options.go`). -/
def new (opts : List (Cache α → Cache α)) : Cache α :=
  let c := opts.foldl (fun s o => o s) (emptyCache α)
  { c with janitor := decide (0 < c.interval) }

/-- The structural consistency invariant of spec section 3: the Index
holds exactly the keys of the recency-list nodes, and neither structure
contains a duplicate key. -/
def Inv (c : Cache α) : Prop :=
  (∀ s ∈ c.index, s ∈ keys c) ∧ (∀ s ∈ keys c, s ∈ c.index) ∧
    (keys c).Nodup ∧ c.index.Nodup

instance (c : Cache α) : Decidable (Inv c) := by
  unfold Inv; infer_instance

/-- Fold a list of distinct fresh insertions: each key of `ks` is set with
value `f k`, ttl 0 and time 0. -/
def setMany (c : Cache α) (ks : List String) (f : String → α) : Cache α :=
  ks.foldl (fun s k => set s k (f k) 0 0) c

/-- The concrete end-to-end example of spec section 8:
`New({maxEntries:2})`, then `Set("a",1,0)`. -/
def exCacheA : Cache Nat :=
  set (new [WithMaxEntries 2]) "a" 1 0 0

/-- The example continued: `Set("b",2,0)`. -/
def exCacheB : Cache Nat :=
  set exCacheA "b" 2 0 0

/-- The example continued: state after `Get("a")`. -/
def exCacheG : Cache Nat :=
  (get exCacheB "a" 0).2

/-- The example continued: state after `Set("c",3,0)` — which must evict
"b", the least recently used key. -/
def exCacheC : Cache Nat :=
  set exCacheG "c" 3 0 0

/-! ### Basic lemmas about keys, lookup and removal -/

theorem keys_filter_ne (l : List (Entry α)) (k : String) :
    (l.filter (fun e => e.key != k)).map (fun e => e.key)
      = (l.map (fun e => e.key)).filter (fun s => s != k) := by
  induction l with
  | nil => rfl
  | cons e t ih => by_cases h : e.key = k <;> simp [List.filter_cons, h, ih]

theorem findEntry_eq_none_iff (c : Cache α) (k : String) :
    findEntry c k = none ↔ k ∉ keys c := by
  simp only [findEntry, List.find?_eq_none, keys, List.mem_map, beq_iff_eq,
    not_exists, not_and]

theorem findEntry_isSome_iff (c : Cache α) (k : String) :
    (findEntry c k).isSome = true ↔ k ∈ keys c := by
  simp only [findEntry, List.find?_isSome, keys, List.mem_map, beq_iff_eq]

theorem find?_key_filter_ne (l : List (Entry α)) (k k' : String) (h : k' ≠ k) :
    (l.filter (fun e => e.key != k)).find? (fun e => e.key == k')
      = l.find? (fun e => e.key == k') := by
  induction l with
  | nil => rfl
  | cons e t ih =>
      by_cases hek : e.key = k
      · rw [List.filter_cons_of_neg (by simp [hek]), ih,
          List.find?_cons_of_neg _ (by simp [hek, h.symm])]
      · by_cases hk' : e.key = k'
        · rw [List.filter_cons_of_pos (by simp [hek]),
            List.find?_cons_of_pos _ (by simp [hk']),
            List.find?_cons_of_pos _ (by simp [hk'])]
        · rw [List.filter_cons_of_pos (by simp [hek]),
            List.find?_cons_of_neg _ (by simp [hk']),
            List.find?_cons_of_neg _ (by simp [hk']), ih]

theorem findEntry_removeBoth_ne (c : Cache α) (k k' : String) (h : k' ≠ k) :
    findEntry (removeBoth c k) k' = findEntry c k' := by
  simp only [findEntry, removeBoth]
  exact find?_key_filter_ne c.ll k k' h

theorem findEntry_foldl_removeBoth (ks : List String) (c : Cache α)
    (k : String) (h : k ∉ ks) :
    findEntry (ks.foldl removeBoth c) k = findEntry c k := by
  induction ks generalizing c with
  | nil => rfl
  | cons a t ih =>
      simp only [List.mem_cons, not_or] at h
      rw [List.foldl_cons, ih _ h.2, findEntry_removeBoth_ne _ _ _ h.1]

theorem ll_eq_dropLast_concat (l : List (Entry α)) (e : Entry α)
    (h : l.getLast? = some e) : l = l.dropLast ++ [e] := by
  rcases List.eq_nil_or_concat l with rfl | ⟨l', a, rfl⟩
  · simp at h
  · rw [List.concat_eq_append] at h ⊢
    rw [List.getLast?_concat] at h
    cases h
    rw [List.dropLast_concat]

/-! ### Unfolding lemmas for the three branches of `set` and for `evictLRU` -/

theorem evictLRU_concat (c : Cache α) (L : List (Entry α)) (elast : Entry α)
    (hll : c.ll = L ++ [elast]) :
    evictLRU c = { c with ll := L,
                          index := c.index.filter (fun s => s != elast.key),
                          evictions := c.evictions + 1 } := by
  simp [evictLRU, hll, List.getLast?_concat, List.dropLast_concat]

theorem set_present (c : Cache α) (k : String) (v : α) (ttl now : Int)
    (h : (findEntry c k).isSome = true) :
    set c k v ttl now
      = { c with ll := ⟨k, v, computeExpiry now ttl⟩ ::
            c.ll.filter (fun x => x.key != k) } := by
  simp only [set]
  rw [if_pos h]

theorem set_absent_under (c : Cache α) (k : String) (v : α) (ttl now : Int)
    (h : findEntry c k = none)
    (hcond : ¬(0 < c.maxEntries ∧ c.maxEntries ≤ (c.ll.length : Int))) :
    set c k v ttl now
      = { c with ll := ⟨k, v, computeExpiry now ttl⟩ :: c.ll,
                 index := k :: c.index } := by
  simp only [set]
  rw [if_neg (by simp [h]), if_neg hcond]

theorem set_absent_full (c : Cache α) (k : String) (v : α) (ttl now : Int)
    (h : findEntry c k = none)
    (hcond : 0 < c.maxEntries ∧ c.maxEntries ≤ (c.ll.length : Int)) :
    set c k v ttl now
      = { evictLRU c with ll := ⟨k, v, computeExpiry now ttl⟩ :: (evictLRU c).ll,
                          index := k :: (evictLRU c).index } := by
  simp only [set]
  rw [if_neg (by simp [h]), if_pos hcond]

theorem evictLRU_ll_subset (c : Cache α) : (evictLRU c).ll ⊆ c.ll := by
  unfold evictLRU
  cases h : c.ll.getLast? with
  | none => exact fun e he => he
  | some e => exact fun x hx => (List.dropLast_sublist c.ll).subset hx

theorem mem_ll_key_ne (c : Cache α) (k : String) (hk : k ∉ keys c) :
    ∀ e ∈ c.ll, e.key ≠ k := by
  intro e he hkey
  exact hk (by simp only [keys, List.mem_map]; exact ⟨e, he, hkey⟩)

theorem set_ll_spec (c : Cache α) (k : String) (v : α) (ttl now : Int) :
    ∃ tl, (set c k v ttl now).ll = ⟨k, v, computeExpiry now ttl⟩ :: tl
      ∧ ∀ e ∈ tl, e.key ≠ k := by
  by_cases h : (findEntry c k).isSome
  · rw [set_present c k v ttl now h]
    refine ⟨_, rfl, ?_⟩
    intro e he
    simp only [List.mem_filter, bne_iff_ne, ne_eq] at he
    exact he.2
  · have hnone : findEntry c k = none := Option.not_isSome_iff_eq_none.mp h
    have hk : k ∉ keys c := (findEntry_eq_none_iff c k).mp hnone
    have hall : ∀ e ∈ c.ll, e.key ≠ k := mem_ll_key_ne c k hk
    by_cases hcond : 0 < c.maxEntries ∧ c.maxEntries ≤ (c.ll.length : Int)
    · rw [set_absent_full c k v ttl now hnone hcond]
      exact ⟨_, rfl, fun e he => hall e (evictLRU_ll_subset c he)⟩
    · rw [set_absent_under c k v ttl now hnone hcond]
      exact ⟨_, rfl, hall⟩

/-! ### TTL correctness (claims C1 and C2) -/

theorem computeExpiry_pos (now d : Int) (hd : 0 < d) :
    computeExpiry now d = some (now + d) := by
  rw [computeExpiry, if_neg (not_le.mpr hd)]

theorem computeExpiry_nonpos (now d : Int) (hd : d ≤ 0) :
    computeExpiry now d = none := by
  rw [computeExpiry, if_pos hd]

/-- C1: an entry stored with ttl `d > 0` is returned by `Get` (with its
value, found) strictly before `setTime + d` and reported absent at or
after `setTime + d`, for any prior cache state — in particular for any
janitor configuration. -/
theorem ttl_correct (c : Cache α) (k : String) (v : α) (d now0 t : Int)
    (hd : 0 < d) :
    (get (set c k v d now0) k t).1
      = if t < now0 + d then some v else none := by
  obtain ⟨tl, hll, -⟩ := set_ll_spec c k v d now0
  rw [computeExpiry_pos now0 d hd] at hll
  have hfind : findEntry (set c k v d now0) k = some ⟨k, v, some (now0 + d)⟩ := by
    rw [findEntry, hll]
    exact List.find?_cons_of_pos _ (by simp)
  by_cases ht : t < now0 + d
  · rw [if_pos ht]
    have hexp : isExpired (⟨k, v, some (now0 + d)⟩ : Entry α) t = false := by
      simp only [isExpired, decide_eq_false_iff_not]
      omega
    simp [get, hfind, hexp]
  · rw [if_neg ht]
    have hexp : isExpired (⟨k, v, some (now0 + d)⟩ : Entry α) t = true := by
      simp only [isExpired, decide_eq_true_eq]
      omega
    simp [get, hfind, hexp]

/-- Witness for C1 at a concrete input. -/
theorem ttl_correct_witness :
    (0 : Int) < 3
    ∧ (get (set (emptyCache Nat) "k" 5 3 10) "k" 11).1
        = (if (11 : Int) < 10 + 3 then some 5 else none)
    ∧ (get (set (emptyCache Nat) "k" 5 3 10) "k" 13).1
        = (if (13 : Int) < 10 + 3 then some 5 else none) :=
  ⟨by decide, ttl_correct (emptyCache Nat) "k" 5 3 10 11 (by decide),
    ttl_correct (emptyCache Nat) "k" 5 3 10 13 (by decide)⟩

/-- C2: an entry stored with ttl `<= 0` never expires: `Get` finds it at
every later time, and it survives an active sweep at any time — it is
touched neither by lazy nor by active expiration. -/
theorem never_expires (c : Cache α) (k : String) (v : α)
    (ttl now0 t tswp : Int) (httl : ttl ≤ 0) :
    (get (set c k v ttl now0) k t).1 = some v
    ∧ (get (sweep (set c k v ttl now0) tswp) k t).1 = some v := by
  obtain ⟨tl, hll, htl⟩ := set_ll_spec c k v ttl now0
  rw [computeExpiry_nonpos now0 ttl httl] at hll
  have hfind : findEntry (set c k v ttl now0) k = some ⟨k, v, none⟩ := by
    rw [findEntry, hll]
    exact List.find?_cons_of_pos _ (by simp)
  have hnexp : isExpired (⟨k, v, none⟩ : Entry α) t = false := rfl
  refine ⟨by simp [get, hfind, hnexp], ?_⟩
  have hkexp : k ∉ expiredKeys (set c k v ttl now0) tswp := by
    intro hmem
    simp only [expiredKeys, List.mem_map, List.mem_filter] at hmem
    obtain ⟨e, ⟨hel, hexp⟩, hkey⟩ := hmem
    rw [hll] at hel
    rcases List.mem_cons.mp hel with rfl | hel0
    · exact absurd hexp (by simp [isExpired])
    · exact htl e hel0 hkey
  have hfind2 : findEntry (sweep (set c k v ttl now0) tswp) k
      = some ⟨k, v, none⟩ := by
    rw [sweep, findEntry_foldl_removeBoth _ _ _ hkexp, hfind]
  simp [get, hfind2, hnexp]

/-- Witness for C2 at a concrete input. -/
theorem never_expires_witness :
    (0 : Int) ≤ 0
    ∧ ((get (set (emptyCache Nat) "z" 9 0 100) "z" 999999).1 = some 9
        ∧ (get (sweep (set (emptyCache Nat) "z" 9 0 100) 500) "z" 999999).1
            = some 9) :=
  ⟨by decide, never_expires (emptyCache Nat) "z" 9 0 100 999999 500 (by decide)⟩

/-! ### Idempotent delete (claim C8), stop (claim C9), options (C7, C10) -/

/-- C8: `Delete` of an absent key is a strict no-op: the resulting cache —
structures and all three counters — is the very same state. -/
theorem delete_absent_noop (c : Cache α) (k : String)
    (h1 : k ∉ keys c) (h2 : k ∉ c.index) : delete c k = c := by
  have hll : c.ll.filter (fun e => e.key != k) = c.ll :=
    List.filter_eq_self.mpr (fun e he => by
      simp only [bne_iff_ne, ne_eq]
      exact mem_ll_key_ne c k h1 e he)
  have hidx : c.index.filter (fun s => s != k) = c.index :=
    List.filter_eq_self.mpr (fun s hs => by
      simp only [bne_iff_ne, ne_eq]
      exact fun hk => h2 (hk ▸ hs))
  simp [delete, removeBoth, hll, hidx]

/-- Witness for C8 at a concrete input. -/
theorem delete_absent_noop_witness :
    ("b" ∉ keys (set (emptyCache Nat) "a" 1 0 0)
      ∧ "b" ∉ (set (emptyCache Nat) "a" 1 0 0).index)
    ∧ delete (set (emptyCache Nat) "a" 1 0 0) "b"
        = set (emptyCache Nat) "a" 1 0 0 :=
  ⟨⟨by decide, by decide⟩,
    delete_absent_noop (set (emptyCache Nat) "a" 1 0 0) "b"
      (by decide) (by decide)⟩

theorem findEntry_stop (c : Cache α) (k : String) :
    findEntry (stop c) k = findEntry c k := rfl

theorem evictLRU_stop (c : Cache α) : evictLRU (stop c) = stop (evictLRU c) := by
  unfold stop evictLRU
  cases h : c.ll.getLast? <;> simp [h]

/-- C9: `Stop` is idempotent, a no-op when no janitor runs, only clears
the janitor flag, and commutes with `Set`, `Get` and `Delete` — the cache
remains fully usable after `Stop`, with only active expiration gone. -/
theorem stop_idempotent (c : Cache α) (k : String) (v : α) (ttl now : Int) :
    stop (stop c) = stop c
    ∧ (c.janitor = false → stop c = c)
    ∧ (stop c).janitor = false
    ∧ set (stop c) k v ttl now = stop (set c k v ttl now)
    ∧ (get (stop c) k now).1 = (get c k now).1
    ∧ (get (stop c) k now).2 = stop (get c k now).2
    ∧ delete (stop c) k = stop (delete c k) := by
  refine ⟨rfl, ?_, rfl, ?_, ?_, ?_, rfl⟩
  · intro hj
    cases c
    simp only [stop]
    rw [← hj]
  · by_cases h : (findEntry c k).isSome
    · rw [set_present (stop c) k v ttl now h, set_present c k v ttl now h]
      rfl
    · have hnone : findEntry c k = none := Option.not_isSome_iff_eq_none.mp h
      by_cases hcond : 0 < c.maxEntries ∧ c.maxEntries ≤ (c.ll.length : Int)
      · rw [set_absent_full (stop c) k v ttl now hnone hcond,
          set_absent_full c k v ttl now hnone hcond, evictLRU_stop]
        rfl
      · rw [set_absent_under (stop c) k v ttl now hnone hcond,
          set_absent_under c k v ttl now hnone hcond]
        rfl
  · cases hf : findEntry c k with
    | none => simp [get, findEntry_stop, hf]
    | some e => by_cases hexp : isExpired e now <;>
        simp [get, findEntry_stop, hf, hexp]
  · cases hf : findEntry c k with
    | none => simp [get, findEntry_stop, hf]; rfl
    | some e =>
        by_cases hexp : isExpired e now <;>
          · simp [get, findEntry_stop, hf, hexp]
            rfl

/-- Witness for C9: C9's hypothesis-free conjuncts at a concrete state
(the theorem has no propositional hypotheses; still instantiated). -/
theorem stop_idempotent_witness :
    stop (stop (set (emptyCache Nat) "a" 1 0 0)) = stop (set (emptyCache Nat) "a" 1 0 0)
    ∧ ((set (emptyCache Nat) "a" 1 0 0).janitor = false →
        stop (set (emptyCache Nat) "a" 1 0 0) = set (emptyCache Nat) "a" 1 0 0)
    ∧ (stop (set (emptyCache Nat) "a" 1 0 0)).janitor = false
    ∧ set (stop (set (emptyCache Nat) "a" 1 0 0)) "b" 2 0 0
        = stop (set (set (emptyCache Nat) "a" 1 0 0) "b" 2 0 0)
    ∧ (get (stop (set (emptyCache Nat) "a" 1 0 0)) "b" 0).1
        = (get (set (emptyCache Nat) "a" 1 0 0) "b" 0).1
    ∧ (get (stop (set (emptyCache Nat) "a" 1 0 0)) "b" 0).2
        = stop (get (set (emptyCache Nat) "a" 1 0 0) "b" 0).2
    ∧ delete (stop (set (emptyCache Nat) "a" 1 0 0)) "b"
        = stop (delete (set (emptyCache Nat) "a" 1 0 0) "b") :=
  stop_idempotent (set (emptyCache Nat) "a" 1 0 0) "b" 2 0 0

/-- C10: the two option constructors from `src/options.go` each write one
configuration field and nothing else, hence commute with each other, and
repeated application keeps the later value. -/
theorem options_algebra (c : Cache α) (d d' n n' : Int) :
    WithCleanupInterval d (WithMaxEntries n c)
        = WithMaxEntries n (WithCleanupInterval d c)
    ∧ WithMaxEntries n (WithMaxEntries n' c) = WithMaxEntries n c
    ∧ WithCleanupInterval d (WithCleanupInterval d' c) = WithCleanupInterval d c
    ∧ (WithCleanupInterval d c).interval = d
    ∧ (WithCleanupInterval d c).index = c.index
    ∧ (WithCleanupInterval d c).ll = c.ll
    ∧ (WithCleanupInterval d c).maxEntries = c.maxEntries
    ∧ (WithCleanupInterval d c).janitor = c.janitor
    ∧ (WithCleanupInterval d c).hits = c.hits
    ∧ (WithCleanupInterval d c).misses = c.misses
    ∧ (WithCleanupInterval d c).evictions = c.evictions
    ∧ (WithMaxEntries n c).maxEntries = n
    ∧ (WithMaxEntries n c).index = c.index
    ∧ (WithMaxEntries n c).ll = c.ll
    ∧ (WithMaxEntries n c).interval = c.interval
    ∧ (WithMaxEntries n c).janitor = c.janitor
    ∧ (WithMaxEntries n c).hits = c.hits
    ∧ (WithMaxEntries n c).misses = c.misses
    ∧ (WithMaxEntries n c).evictions = c.evictions :=
  ⟨rfl, rfl, rfl, rfl, rfl, rfl, rfl, rfl, rfl, rfl, rfl, rfl, rfl, rfl,
    rfl, rfl, rfl, rfl, rfl⟩

theorem findEntry_config (c : Cache α) (m d : Int) (k : String) :
    findEntry { c with maxEntries := m, interval := d } k = findEntry c k := rfl

/-- C7: negative configuration values behave exactly like zero:
construction with a negative interval yields the same cache up to the
stored interval, with no janitor; a negative capacity is never consulted
(`set` behaves as with `maxEntries = 0`, `get` ignores both fields);
construction always succeeds into a consistent state. -/
theorem negative_config_sanitized (d n : Int) (hd : d ≤ 0) (hn : n ≤ 0)
    (c : Cache α) (k : String) (v : α) (ttl now m : Int)
    (hc : c.maxEntries ≤ 0) :
    new (α := α) [WithCleanupInterval d, WithMaxEntries n]
        = { new (α := α) [WithCleanupInterval 0, WithMaxEntries 0] with
              interval := d, maxEntries := n }
    ∧ (new (α := α) [WithCleanupInterval d, WithMaxEntries n]).janitor = false
    ∧ set c k v ttl now
        = { set { c with maxEntries := 0 } k v ttl now with
              maxEntries := c.maxEntries }
    ∧ (get { c with maxEntries := m, interval := d } k now).1
        = (get c k now).1
    ∧ Inv (new (α := α) [WithCleanupInterval d, WithMaxEntries n]) := by
  have hjd : decide ((0 : Int) < d) = false := decide_eq_false (not_lt.mpr hd)
  refine ⟨?_, ?_, ?_, ?_, ?_⟩
  · simp [new, emptyCache, WithCleanupInterval, WithMaxEntries, hjd]
  · simp [new, emptyCache, WithCleanupInterval, WithMaxEntries, hjd]
  · have hfe : findEntry { c with maxEntries := (0 : Int) } k = findEntry c k := rfl
    by_cases h : (findEntry c k).isSome
    · rw [set_present c k v ttl now h,
        set_present { c with maxEntries := (0 : Int) } k v ttl now (hfe ▸ h)]
    · have hnone : findEntry c k = none := Option.not_isSome_iff_eq_none.mp h
      have hcond : ¬(0 < c.maxEntries ∧ c.maxEntries ≤ (c.ll.length : Int)) :=
        fun hco => absurd hco.1 (not_lt.mpr hc)
      have hcond0 : ¬(0 < ({ c with maxEntries := (0 : Int) } : Cache α).maxEntries
          ∧ ({ c with maxEntries := (0 : Int) } : Cache α).maxEntries
              ≤ (({ c with maxEntries := (0 : Int) } : Cache α).ll.length : Int)) := by
        intro hco
        exact absurd hco.1 (by norm_num)
      rw [set_absent_under c k v ttl now hnone hcond,
        set_absent_under { c with maxEntries := (0 : Int) } k v ttl now
          (hfe ▸ hnone) hcond0]
  · cases hf : findEntry c k with
    | none => simp [get, findEntry_config, hf]
    | some e => by_cases hexp : isExpired e now <;>
        simp [get, findEntry_config, hf, hexp]
  · simp [Inv, keys, new, emptyCache, WithCleanupInterval, WithMaxEntries]

/-- Witness for C7 at a concrete input. -/
theorem negative_config_sanitized_witness :
    ((-5 : Int) ≤ 0 ∧ (-3 : Int) ≤ 0
      ∧ (set (emptyCache Nat) "a" 1 0 0).maxEntries ≤ 0)
    ∧ (new (α := Nat) [WithCleanupInterval (-5), WithMaxEntries (-3)]
          = { new (α := Nat) [WithCleanupInterval 0, WithMaxEntries 0] with
                interval := -5, maxEntries := -3 }
        ∧ (new (α := Nat) [WithCleanupInterval (-5), WithMaxEntries (-3)]).janitor
            = false
        ∧ set (set (emptyCache Nat) "a" 1 0 0) "b" 2 0 0
            = { set { set (emptyCache Nat) "a" 1 0 0 with maxEntries := 0 }
                  "b" 2 0 0 with
                  maxEntries := (set (emptyCache Nat) "a" 1 0 0).maxEntries }
        ∧ (get { set (emptyCache Nat) "a" 1 0 0 with
              maxEntries := -7, interval := -5 } "b" 0).1
            = (get (set (emptyCache Nat) "a" 1 0 0) "b" 0).1
        ∧ Inv (new (α := Nat) [WithCleanupInterval (-5), WithMaxEntries (-3)])) :=
  ⟨⟨by decide, by decide, by decide⟩,
    negative_config_sanitized (-5) (-3) (by decide) (by decide)
      (set (emptyCache Nat) "a" 1 0 0) "b" 2 0 0 (-7) (by decide)⟩

/-! ### The Index / recency-list consistency invariant (claims C5 and C6) -/

theorem mem_filter_ne {l : List String} {s k : String} :
    s ∈ l.filter (fun x => x != k) ↔ s ∈ l ∧ s ≠ k := by
  simp [List.mem_filter]

theorem keys_removeBoth (c : Cache α) (k : String) :
    keys (removeBoth c k) = (keys c).filter (fun s => s != k) := by
  simp only [keys, removeBoth]
  exact keys_filter_ne c.ll k

theorem inv_removeBoth (c : Cache α) (k : String) (h : Inv c) :
    Inv (removeBoth c k) := by
  obtain ⟨h1, h2, h3, h4⟩ := h
  refine ⟨?_, ?_, ?_, ?_⟩
  · intro s hs
    rw [show (removeBoth c k).index = c.index.filter (fun x => x != k) from rfl,
      mem_filter_ne] at hs
    rw [keys_removeBoth, mem_filter_ne]
    exact ⟨h1 s hs.1, hs.2⟩
  · intro s hs
    rw [keys_removeBoth, mem_filter_ne] at hs
    rw [show (removeBoth c k).index = c.index.filter (fun x => x != k) from rfl,
      mem_filter_ne]
    exact ⟨h2 s hs.1, hs.2⟩
  · rw [keys_removeBoth]
    exact h3.filter _
  · exact h4.filter _

theorem inv_evictLRU (c : Cache α) (h : Inv c) :
    Inv (evictLRU c) ∧ keys (evictLRU c) ⊆ keys c
      ∧ (evictLRU c).index ⊆ c.index := by
  rcases List.eq_nil_or_concat c.ll with hnil | ⟨L, elast, hconc⟩
  · have heq : evictLRU c = c := by simp [evictLRU, hnil]
    rw [heq]
    exact ⟨h, fun s hs => hs, fun s hs => hs⟩
  · rw [List.concat_eq_append] at hconc
    rw [evictLRU_concat c L elast hconc]
    obtain ⟨h1, h2, h3, h4⟩ := h
    have hkeys : keys c = L.map (fun e => e.key) ++ [elast.key] := by
      rw [keys, hconc]
      simp
    have hstk : keys ({ c with
        ll := L,
        index := c.index.filter (fun s => s != elast.key),
        evictions := c.evictions + 1 } : Cache α) = L.map (fun e => e.key) := rfl
    obtain ⟨hLnd, -, hdisj⟩ := List.nodup_append.mp (hkeys ▸ h3)
    have hekL : elast.key ∉ L.map (fun e => e.key) :=
      fun hm => hdisj hm (List.mem_singleton_self _)
    refine ⟨⟨?_, ?_, ?_, ?_⟩, ?_, ?_⟩
    · intro s hs
      rw [show ({ c with
          ll := L,
          index := c.index.filter (fun s => s != elast.key),
          evictions := c.evictions + 1 } : Cache α).index
        = c.index.filter (fun x => x != elast.key) from rfl, mem_filter_ne] at hs
      rw [hstk]
      have := h1 s hs.1
      rw [hkeys] at this
      rcases List.mem_append.mp this with hin | hin
      · exact hin
      · exact absurd (List.mem_singleton.mp hin) hs.2
    · intro s hs
      rw [hstk] at hs
      rw [show ({ c with
          ll := L,
          index := c.index.filter (fun s => s != elast.key),
          evictions := c.evictions + 1 } : Cache α).index
        = c.index.filter (fun x => x != elast.key) from rfl, mem_filter_ne]
      refine ⟨h2 s (by rw [hkeys]; exact List.mem_append_left _ hs), ?_⟩
      intro hsk
      exact hekL (hsk ▸ hs)
    · rw [hstk]
      exact hLnd
    · exact h4.filter _
    · intro s hs
      rw [hstk] at hs
      rw [hkeys]
      exact List.mem_append_left _ hs
    · intro s hs
      exact (List.filter_sublist c.index).subset hs

theorem inv_insertFront (c : Cache α) (e : Entry α) (k : String)
    (hek : e.key = k) (hk1 : k ∉ keys c) (hk2 : k ∉ c.index) (h : Inv c) :
    Inv { c with ll := e :: c.ll, index := k :: c.index } := by
  obtain ⟨h1, h2, h3, h4⟩ := h
  have hkeys : keys ({ c with ll := e :: c.ll, index := k :: c.index } : Cache α)
      = k :: keys c := by
    simp [keys, hek]
  refine ⟨?_, ?_, ?_, ?_⟩
  · intro s hs
    rw [hkeys]
    rcases List.mem_cons.mp hs with rfl | hs0
    · exact List.mem_cons_self _ _
    · exact List.mem_cons_of_mem _ (h1 s hs0)
  · intro s hs
    rw [hkeys] at hs
    rcases List.mem_cons.mp hs with rfl | hs0
    · exact List.mem_cons_self _ _
    · exact List.mem_cons_of_mem _ (h2 s hs0)
  · rw [hkeys]
    exact List.nodup_cons.mpr ⟨hk1, h3⟩
  · exact List.nodup_cons.mpr ⟨hk2, h4⟩

theorem inv_movefront (c : Cache α) (e : Entry α) (k : String)
    (hek : e.key = k) (hkmem : k ∈ keys c) (h : Inv c) :
    Inv { c with ll := e :: c.ll.filter (fun x => x.key != k) } := by
  obtain ⟨h1, h2, h3, h4⟩ := h
  have hkeys : keys ({ c with
      ll := e :: c.ll.filter (fun x => x.key != k) } : Cache α)
      = k :: (keys c).filter (fun s => s != k) := by
    simp only [keys, List.map_cons, hek]
    rw [keys_filter_ne]
  refine ⟨?_, ?_, ?_, ?_⟩
  · intro s hs
    rw [hkeys]
    rcases eq_or_ne s k with rfl | hne
    · exact List.mem_cons_self _ _
    · exact List.mem_cons_of_mem _ (mem_filter_ne.mpr ⟨h1 s hs, hne⟩)
  · intro s hs
    rw [hkeys] at hs
    rcases List.mem_cons.mp hs with rfl | hs0
    · exact h2 _ hkmem
    · exact h2 _ (mem_filter_ne.mp hs0).1
  · rw [hkeys]
    exact List.nodup_cons.mpr
      ⟨fun hm => (mem_filter_ne.mp hm).2 rfl, h3.filter _⟩
  · exact h4

theorem inv_set (c : Cache α) (k : String) (v : α) (ttl now : Int)
    (h : Inv c) : Inv (set c k v ttl now) := by
  by_cases hp : (findEntry c k).isSome
  · rw [set_present c k v ttl now hp]
    exact inv_movefront c ⟨k, v, computeExpiry now ttl⟩ k rfl
      ((findEntry_isSome_iff c k).mp hp) h
  · have hnone : findEntry c k = none := Option.not_isSome_iff_eq_none.mp hp
    have hk1 : k ∉ keys c := (findEntry_eq_none_iff c k).mp hnone
    have hk2 : k ∉ c.index := fun hm => hk1 (h.1 k hm)
    by_cases hcond : 0 < c.maxEntries ∧ c.maxEntries ≤ (c.ll.length : Int)
    · rw [set_absent_full c k v ttl now hnone hcond]
      obtain ⟨hie, hks, his⟩ := inv_evictLRU c h
      exact inv_insertFront (evictLRU c) ⟨k, v, computeExpiry now ttl⟩ k rfl
        (fun hm => hk1 (hks hm)) (fun hm => hk2 (his hm)) hie
    · rw [set_absent_under c k v ttl now hnone hcond]
      exact inv_insertFront c ⟨k, v, computeExpiry now ttl⟩ k rfl hk1 hk2 h

theorem findEntry_some_key (c : Cache α) (k : String) (e : Entry α)
    (h : findEntry c k = some e) : e.key = k := by
  have := List.find?_some h
  simpa using this

theorem findEntry_some_mem (c : Cache α) (k : String) (e : Entry α)
    (h : findEntry c k = some e) : e ∈ c.ll :=
  List.mem_of_find?_eq_some h

theorem inv_get (c : Cache α) (k : String) (now : Int) (h : Inv c) :
    Inv (get c k now).2 := by
  cases hf : findEntry c k with
  | none =>
      simp only [get, hf]
      exact h
  | some e =>
      by_cases hexp : isExpired e now
      · simp only [get, hf, hexp, if_true]
        exact inv_removeBoth c k h
      · simp only [get, hf, hexp, if_false]
        have hek : e.key = k := findEntry_some_key c k e hf
        have hkmem : k ∈ keys c := by
          rw [← findEntry_isSome_iff, hf]
          rfl
        exact inv_movefront c e k hek hkmem h

theorem inv_foldl_removeBoth (ks : List String) :
    ∀ c : Cache α, Inv c → Inv (ks.foldl removeBoth c) := by
  induction ks with
  | nil => exact fun c h => h
  | cons a t ih =>
      intro c h
      exact ih (removeBoth c a) (inv_removeBoth c a h)

theorem inv_sweep (c : Cache α) (now : Int) (h : Inv c) :
    Inv (sweep c now) :=
  inv_foldl_removeBoth (expiredKeys c now) c h

theorem length_filter_ne_str (l : List String) (k : String)
    (hnd : l.Nodup) (hk : k ∈ l) :
    (l.filter (fun s => s != k)).length + 1 = l.length := by
  induction l with
  | nil => cases hk
  | cons a t ih =>
      have hna := (List.nodup_cons.mp hnd).1
      have hnd' := (List.nodup_cons.mp hnd).2
      rcases List.mem_cons.mp hk with rfl | hkt
      · rw [List.filter_cons_of_neg (by simp)]
        rw [List.filter_eq_self.mpr (fun s hs => by
          simp only [bne_iff_ne, ne_eq]
          exact fun hh => hna (hh ▸ hs))]
        simp
      · by_cases hak : a = k
        · exact absurd hkt (hak ▸ hna)
        · rw [List.filter_cons_of_pos (by simp [hak])]
          have := ih hnd' hkt
          simp only [List.length_cons]
          omega

theorem length_filter_ne_entry (l : List (Entry α)) (k : String)
    (hnd : (l.map (fun e => e.key)).Nodup)
    (hk : k ∈ l.map (fun e => e.key)) :
    (l.filter (fun e => e.key != k)).length + 1 = l.length := by
  have h1 : (l.filter (fun e => e.key != k)).length
      = ((l.map (fun e => e.key)).filter (fun s => s != k)).length := by
    calc (l.filter (fun e => e.key != k)).length
        = ((l.filter (fun e => e.key != k)).map (fun e => e.key)).length := by
          rw [List.length_map]
      _ = ((l.map (fun e => e.key)).filter (fun s => s != k)).length := by
          rw [keys_filter_ne]
  have h2 := length_filter_ne_str (l.map (fun e => e.key)) k hnd hk
  rw [List.length_map] at h2
  omega

theorem index_length_eq (c : Cache α) (h : Inv c) :
    c.index.length = c.ll.length := by
  have hperm : c.index.Perm (keys c) :=
    (List.perm_ext_iff_of_nodup h.2.2.2 h.2.2.1).mpr
      (fun a => ⟨h.1 a, h.2.1 a⟩)
  have := hperm.length_eq
  rwa [keys, List.length_map] at this

/-- C5: with a positive `maxEntries`, `set` keeps the number of indexed
keys within the bound; and `set` on an already-present key updates the
entry in place — no eviction, same Index, same size, and the key now maps
to the new value and expiry. -/
theorem capacity_bound (c : Cache α) (k : String) (v : α) (ttl now : Int)
    (h : Inv c) :
    (0 < c.maxEntries → (c.index.length : Int) ≤ c.maxEntries →
      ((set c k v ttl now).index.length : Int) ≤ c.maxEntries)
    ∧ ((findEntry c k).isSome →
        (set c k v ttl now).evictions = c.evictions
        ∧ (set c k v ttl now).index = c.index
        ∧ (set c k v ttl now).ll.length = c.ll.length
        ∧ findEntry (set c k v ttl now) k
            = some ⟨k, v, computeExpiry now ttl⟩) := by
  constructor
  · intro hpos hle
    by_cases hp : (findEntry c k).isSome
    · rw [set_present c k v ttl now hp]
      exact hle
    · have hnone : findEntry c k = none := Option.not_isSome_iff_eq_none.mp hp
      by_cases hcond : 0 < c.maxEntries ∧ c.maxEntries ≤ (c.ll.length : Int)
      · rw [set_absent_full c k v ttl now hnone hcond]
        have hlen : 0 < c.ll.length := by
          have := hcond.2
          omega
        rcases List.eq_nil_or_concat c.ll with hnil | ⟨L, elast, hconc⟩
        · rw [hnil] at hlen
          exact absurd hlen (by simp)
        · rw [List.concat_eq_append] at hconc
          rw [evictLRU_concat c L elast hconc]
          have hekc : elast.key ∈ keys c := by
            rw [keys, hconc]
            simp
          have heki : elast.key ∈ c.index := h.2.1 _ hekc
          have hflt := length_filter_ne_str c.index elast.key h.2.2.2 heki
          have : (({ c with
              ll := L,
              index := c.index.filter (fun s => s != elast.key),
              evictions := c.evictions + 1 } : Cache α).index.length)
              = c.index.length - 1 := by
            show (c.index.filter (fun s => s != elast.key)).length
              = c.index.length - 1
            omega
          simp only [List.length_cons]
          show ((c.index.filter (fun s => s != elast.key)).length + 1 : Int)
            ≤ c.maxEntries
          omega
      · rw [set_absent_under c k v ttl now hnone hcond]
        have hlt : (c.ll.length : Int) < c.maxEntries := by
          rcases not_and_or.mp hcond with hc1 | hc2
          · exact absurd hpos hc1
          · omega
        have hieq := index_length_eq c h
        simp only [List.length_cons]
        show ((c.index.length + 1 : Nat) : Int) ≤ c.maxEntries
        push_cast
        omega
  · intro hp
    rw [set_present c k v ttl now hp]
    have hkmem : k ∈ keys c := (findEntry_isSome_iff c k).mp hp
    refine ⟨rfl, rfl, ?_, ?_⟩
    · show (c.ll.filter (fun x => x.key != k)).length + 1 = c.ll.length
      exact length_filter_ne_entry c.ll k h.2.2.1 hkmem
    · show List.find? (fun e => e.key == k)
        (⟨k, v, computeExpiry now ttl⟩ :: c.ll.filter (fun x => x.key != k))
        = some ⟨k, v, computeExpiry now ttl⟩
      exact List.find?_cons_of_pos _ (by simp)

/-- Witness for C5 at a concrete input. -/
theorem capacity_bound_witness :
    Inv exCacheA
    ∧ ((0 < exCacheA.maxEntries →
          (exCacheA.index.length : Int) ≤ exCacheA.maxEntries →
          ((set exCacheA "a" 7 0 0).index.length : Int) ≤ exCacheA.maxEntries)
        ∧ ((findEntry exCacheA "a").isSome →
            (set exCacheA "a" 7 0 0).evictions = exCacheA.evictions
            ∧ (set exCacheA "a" 7 0 0).index = exCacheA.index
            ∧ (set exCacheA "a" 7 0 0).ll.length = exCacheA.ll.length
            ∧ findEntry (set exCacheA "a" 7 0 0) "a"
                = some ⟨"a", 7, computeExpiry 0 0⟩)) :=
  ⟨by decide, capacity_bound exCacheA "a" 7 0 0 (by decide)⟩

/-- C6: from any consistent state, each operation (`set`, `get`, `delete`,
`sweep`) leaves the Index and the recency list holding the same key set,
with no duplicate keys; and `get` and `delete` leave every other key's
entry untouched. -/
theorem structures_stay_consistent (c : Cache α) (k k' : String) (v : α)
    (ttl now : Int) (h : Inv c) (hk' : k' ≠ k) :
    Inv (set c k v ttl now)
    ∧ Inv (get c k now).2
    ∧ Inv (delete c k)
    ∧ Inv (sweep c now)
    ∧ findEntry (get c k now).2 k' = findEntry c k'
    ∧ findEntry (delete c k) k' = findEntry c k' := by
  refine ⟨inv_set c k v ttl now h, inv_get c k now h, inv_removeBoth c k h,
    inv_sweep c now h, ?_, findEntry_removeBoth_ne c k k' hk'⟩
  cases hf : findEntry c k with
  | none =>
      simp only [get, hf]
      rfl
  | some e =>
      by_cases hexp : isExpired e now
      · simp only [get, hf, hexp, if_true]
        exact findEntry_removeBoth_ne c k k' hk'
      · simp only [get, hf, hexp, if_false]
        have hek : e.key = k := findEntry_some_key c k e hf
        show List.find? (fun x => x.key == k')
          (e :: c.ll.filter (fun x => x.key != k)) = findEntry c k'
        rw [List.find?_cons_of_neg _ (by
          simp only [hek, beq_iff_eq]
          exact Ne.symm hk')]
        exact find?_key_filter_ne c.ll k k' hk'

/-- Witness for C6 at a concrete input. -/
theorem structures_stay_consistent_witness :
    (Inv (set (emptyCache Nat) "a" 1 0 0) ∧ "b" ≠ "a")
    ∧ (Inv (set (set (emptyCache Nat) "a" 1 0 0) "a" 5 0 0)
        ∧ Inv (get (set (emptyCache Nat) "a" 1 0 0) "a" 0).2
        ∧ Inv (delete (set (emptyCache Nat) "a" 1 0 0) "a")
        ∧ Inv (sweep (set (emptyCache Nat) "a" 1 0 0) 0)
        ∧ findEntry (get (set (emptyCache Nat) "a" 1 0 0) "a" 0).2 "b"
            = findEntry (set (emptyCache Nat) "a" 1 0 0) "b"
        ∧ findEntry (delete (set (emptyCache Nat) "a" 1 0 0) "a") "b"
            = findEntry (set (emptyCache Nat) "a" 1 0 0) "b") :=
  ⟨⟨by decide, by decide⟩,
    structures_stay_consistent (set (emptyCache Nat) "a" 1 0 0) "a" "b" 5 0 0
      (by decide) (by decide)⟩

/-! ### Filling and overflowing a bounded cache (claims C3 and C4) -/

theorem setMany_nil (c : Cache α) (f : String → α) : setMany c [] f = c := rfl

theorem setMany_cons (c : Cache α) (k : String) (t : List String)
    (f : String → α) :
    setMany c (k :: t) f = setMany (set c k (f k) 0 0) t f := rfl

theorem setMany_append (c : Cache α) (a b : List String) (f : String → α) :
    setMany c (a ++ b) f = setMany (setMany c a f) b f := by
  simp [setMany, List.foldl_append]

theorem keys_insertFront (c : Cache α) (e : Entry α) (k : String)
    (hek : e.key = k) :
    keys ({ c with ll := e :: c.ll, index := k :: c.index } : Cache α)
      = k :: keys c := by
  simp [keys, hek]

theorem setMany_fill (ks : List String) (f : String → α) :
    ∀ c : Cache α, ks.Nodup → (∀ k ∈ ks, k ∉ keys c) →
      (c.maxEntries ≤ 0 ∨ (c.ll.length + ks.length : Int) ≤ c.maxEntries) →
      setMany c ks f
        = { c with ll := ks.reverse.map (fun k => ⟨k, f k, none⟩) ++ c.ll,
                   index := ks.reverse ++ c.index } := by
  induction ks with
  | nil =>
      intro c _ _ _
      simp [setMany_nil]
  | cons k t ih =>
      intro c hnd hfresh hcap
      have hknotin : k ∉ keys c := hfresh k (List.mem_cons_self _ _)
      have hnone : findEntry c k = none := (findEntry_eq_none_iff c k).mpr hknotin
      have hcond : ¬(0 < c.maxEntries ∧ c.maxEntries ≤ (c.ll.length : Int)) := by
        rcases hcap with hcap | hcap
        · intro hco
          have := hco.1
          omega
        · intro hco
          have h2 := hco.2
          simp only [List.length_cons] at hcap
          push_cast at hcap
          omega
      have hstep : set c k (f k) 0 0
          = { c with ll := ⟨k, f k, none⟩ :: c.ll, index := k :: c.index } := by
        have h0 := set_absent_under c k (f k) 0 0 hnone hcond
        rwa [computeExpiry_nonpos 0 0 le_rfl] at h0
      have hkeys' : keys (set c k (f k) 0 0) = k :: keys c := by
        rw [hstep]
        exact keys_insertFront c (⟨k, f k, none⟩ : Entry α) k rfl
      have hfresh' : ∀ k' ∈ t, k' ∉ keys (set c k (f k) 0 0) := by
        intro k' hk' hmem
        rw [hkeys'] at hmem
        rcases List.mem_cons.mp hmem with hkk | hmm
        · exact (List.nodup_cons.mp hnd).1 (hkk ▸ hk')
        · exact hfresh k' (List.mem_cons_of_mem _ hk') hmm
      have hcap' : (set c k (f k) 0 0).maxEntries ≤ 0
          ∨ ((set c k (f k) 0 0).ll.length + t.length : Int)
            ≤ (set c k (f k) 0 0).maxEntries := by
        rw [hstep]
        rcases hcap with hcap | hcap
        · exact Or.inl hcap
        · right
          show ((((⟨k, f k, none⟩ : Entry α) :: c.ll).length + t.length : Int))
            ≤ c.maxEntries
          simp only [List.length_cons] at hcap ⊢
          push_cast at hcap ⊢
          omega
      rw [setMany_cons,
        ih _ (List.nodup_cons.mp hnd).2 hfresh' hcap', hstep]
      ext : 1 <;> simp [List.reverse_cons]

theorem setMany_overflow (ks : List String) (f : String → α) :
    ∀ c : Cache α, ks.Nodup → (∀ k ∈ ks, k ∉ keys c) →
      0 < c.maxEntries → (c.ll.length : Int) = c.maxEntries →
      (setMany c ks f).evictions = c.evictions + ks.length
      ∧ ((setMany c ks f).ll.length : Int) = c.maxEntries
      ∧ (setMany c ks f).maxEntries = c.maxEntries
      ∧ (∀ s, s ∈ keys (setMany c ks f) → s ∈ ks ∨ s ∈ keys c) := by
  induction ks with
  | nil =>
      intro c _ _ _ hlen
      exact ⟨by simp [setMany_nil], by rw [setMany_nil]; exact hlen, rfl,
        fun s hs => Or.inr hs⟩
  | cons k t ih =>
      intro c hnd hfresh hpos hlen
      have hknotin : k ∉ keys c := hfresh k (List.mem_cons_self _ _)
      have hnone : findEntry c k = none := (findEntry_eq_none_iff c k).mpr hknotin
      have hpos' : 0 < c.ll.length := by
        have h0 : (0 : Int) < (c.ll.length : Int) := by omega
        exact_mod_cast h0
      rcases List.eq_nil_or_concat c.ll with hnil | ⟨L, elast, hconc⟩
      · rw [hnil] at hpos'
        simp at hpos'
      · rw [List.concat_eq_append] at hconc
        have hstep0 := set_absent_full c k (f k) 0 0 hnone
          ⟨hpos, le_of_eq hlen.symm⟩
        rw [evictLRU_concat c L elast hconc,
          computeExpiry_nonpos 0 0 le_rfl] at hstep0
        have hLlen : L.length + 1 = c.ll.length := by
          rw [hconc]
          simp
        have h1 : (set c k (f k) 0 0).evictions = c.evictions + 1 := by
          rw [hstep0]
        have h2 : (set c k (f k) 0 0).ll.length = c.ll.length := by
          rw [hstep0]
          show ((⟨k, f k, none⟩ : Entry α) :: L).length = c.ll.length
          simp only [List.length_cons]
          omega
        have h3 : (set c k (f k) 0 0).maxEntries = c.maxEntries := by
          rw [hstep0]
        have hkeysc : keys (set c k (f k) 0 0)
            = k :: L.map (fun e => e.key) := by
          rw [hstep0]
          simp [keys]
        have hkeyscfull : keys c = L.map (fun e => e.key) ++ [elast.key] := by
          rw [keys, hconc]
          simp
        have hfresh' : ∀ k' ∈ t, k' ∉ keys (set c k (f k) 0 0) := by
          intro k' hk' hmem
          rw [hkeysc] at hmem
          rcases List.mem_cons.mp hmem with hkk | hmm
          · exact (List.nodup_cons.mp hnd).1 (hkk ▸ hk')
          · exact hfresh k' (List.mem_cons_of_mem _ hk')
              (by rw [hkeyscfull]; exact List.mem_append_left _ hmm)
        have hpos'' : 0 < (set c k (f k) 0 0).maxEntries := h3 ▸ hpos
        have hlen' : (((set c k (f k) 0 0).ll.length : Nat) : Int)
            = (set c k (f k) 0 0).maxEntries := by
          rw [h2, h3, hlen]
        obtain ⟨ihe, ihl, ihm, ihk⟩ :=
          ih (set c k (f k) 0 0) (List.nodup_cons.mp hnd).2 hfresh' hpos'' hlen'
        refine ⟨?_, ?_, ?_, ?_⟩
        · rw [setMany_cons, ihe, h1]
          simp only [List.length_cons]
          omega
        · rw [setMany_cons, ihl, h3]
        · rw [setMany_cons, ihm, h3]
        · intro s hs
          rw [setMany_cons] at hs
          rcases ihk s hs with hin | hin
          · exact Or.inl (List.mem_cons_of_mem _ hin)
          · rw [hkeysc] at hin
            rcases List.mem_cons.mp hin with rfl | hin2
            · exact Or.inl (List.mem_cons_self _ _)
            · exact Or.inr (by
                rw [hkeyscfull]
                exact List.mem_append_left _ hin2)

theorem fill_from_new (ks : List String) (f : String → α) (n : Nat)
    (hnd : ks.Nodup) (hlen : ks.length ≤ n) :
    setMany (new (α := α) [WithMaxEntries (n : Int)]) ks f
      = { emptyCache α with
          maxEntries := (n : Int),
          ll := ks.reverse.map (fun k => ⟨k, f k, none⟩),
          index := ks.reverse } := by
  have hc0 : new (α := α) [WithMaxEntries (n : Int)]
      = { emptyCache α with maxEntries := (n : Int) } := rfl
  rw [hc0, setMany_fill ks f _ hnd ?fresh ?cap]
  · ext : 1 <;> simp [emptyCache]
  case fresh =>
    intro k hk hmem
    simp [keys, emptyCache] at hmem
  case cap =>
    right
    show (((emptyCache α).ll.length : Int) + ks.length) ≤ (n : Int)
    simp only [emptyCache, List.length_nil]
    push_cast
    omega

/-- C4: inserting `n + k` distinct keys into a fresh cache with
`maxEntries = n > 0`, with no deletions and ttl 0 (no expirations),
leaves the eviction counter at exactly `k = (number of keys) - n`: the
counter advances exactly once per eviction performed by `set`. -/
theorem eviction_count (ks : List String) (f : String → α) (n : Nat)
    (hnd : ks.Nodup) (hn : 0 < n) (hlen : n ≤ ks.length) :
    (setMany (new (α := α) [WithMaxEntries (n : Int)]) ks f).evictions
      = ks.length - n := by
  have hsplit : setMany (new (α := α) [WithMaxEntries (n : Int)]) ks f
      = setMany (setMany (new (α := α) [WithMaxEntries (n : Int)])
          (ks.take n) f) (ks.drop n) f := by
    conv_lhs => rw [← List.take_append_drop n ks]
    rw [setMany_append]
  have htknd : (ks.take n).Nodup := List.Nodup.sublist (List.take_sublist n ks) hnd
  have htklen : (ks.take n).length = n := by
    rw [List.length_take]
    omega
  have hfill := fill_from_new (ks.take n) f n htknd (le_of_eq htklen)
  have h1e : (setMany (new (α := α) [WithMaxEntries (n : Int)])
      (ks.take n) f).evictions = 0 := by
    rw [hfill]
    rfl
  have h1m : (setMany (new (α := α) [WithMaxEntries (n : Int)])
      (ks.take n) f).maxEntries = (n : Int) := by
    rw [hfill]
  have h1l : (setMany (new (α := α) [WithMaxEntries (n : Int)])
      (ks.take n) f).ll.length = n := by
    rw [hfill]
    show ((ks.take n).reverse.map (fun k => (⟨k, f k, none⟩ : Entry α))).length = n
    simp only [List.length_map, List.length_reverse, List.length_take]
    omega
  have h1k : keys (setMany (new (α := α) [WithMaxEntries (n : Int)])
      (ks.take n) f) = (ks.take n).reverse := by
    rw [hfill]
    show ((ks.take n).reverse.map
        (fun k => (⟨k, f k, none⟩ : Entry α))).map (fun e => e.key)
      = (ks.take n).reverse
    rw [List.map_map]
    have hid : ((fun (e : Entry α) => e.key)
        ∘ (fun k => (⟨k, f k, none⟩ : Entry α))) = id := rfl
    rw [hid, List.map_id]
  have hdnd : (ks.drop n).Nodup := List.Nodup.sublist (List.drop_sublist n ks) hnd
  have hdisj := List.disjoint_take_drop (l := ks) hnd (le_refl n)
  have hfresh : ∀ k ∈ ks.drop n,
      k ∉ keys (setMany (new (α := α) [WithMaxEntries (n : Int)]) (ks.take n) f) := by
    intro k hk hmem
    rw [h1k, List.mem_reverse] at hmem
    exact hdisj hmem hk
  have hpos' : 0 < (setMany (new (α := α) [WithMaxEntries (n : Int)])
      (ks.take n) f).maxEntries := by
    rw [h1m]
    exact_mod_cast hn
  have hlen' : (((setMany (new (α := α) [WithMaxEntries (n : Int)])
      (ks.take n) f).ll.length : Nat) : Int)
      = (setMany (new (α := α) [WithMaxEntries (n : Int)])
          (ks.take n) f).maxEntries := by
    rw [h1l, h1m]
  obtain ⟨ihe, -, -, -⟩ := setMany_overflow (ks.drop n) f
    (setMany (new (α := α) [WithMaxEntries (n : Int)]) (ks.take n) f)
    hdnd hfresh hpos' hlen'
  rw [hsplit, ihe, h1e, List.length_drop]
  omega

/-- Witness for C4 at a concrete input: three distinct keys into a
capacity-2 cache yield exactly one eviction. -/
theorem eviction_count_witness :
    (["a", "b", "c"].Nodup ∧ 0 < 2 ∧ 2 ≤ ["a", "b", "c"].length)
    ∧ (setMany (new (α := Nat) [WithMaxEntries ((2 : Nat) : Int)])
        ["a", "b", "c"] (fun _ => 0)).evictions = ["a", "b", "c"].length - 2 :=
  ⟨⟨by decide, by decide, by decide⟩,
    eviction_count ["a", "b", "c"] (fun _ => 0) 2 (by decide) (by decide)
      (by decide)⟩

theorem fill_facts (ks : List String) (f : String → α) (n : Nat)
    (hnd : ks.Nodup) (hlen : ks.length ≤ n) :
    (setMany (new (α := α) [WithMaxEntries (n : Int)]) ks f).evictions = 0
    ∧ (setMany (new (α := α) [WithMaxEntries (n : Int)]) ks f).maxEntries
        = (n : Int)
    ∧ (setMany (new (α := α) [WithMaxEntries (n : Int)]) ks f).ll.length
        = ks.length
    ∧ (setMany (new (α := α) [WithMaxEntries (n : Int)]) ks f).ll
        = ks.reverse.map (fun k => ⟨k, f k, none⟩)
    ∧ keys (setMany (new (α := α) [WithMaxEntries (n : Int)]) ks f)
        = ks.reverse
    ∧ (setMany (new (α := α) [WithMaxEntries (n : Int)]) ks f).hits = 0 := by
  have hfill := fill_from_new ks f n hnd hlen
  have hid : ((fun (e : Entry α) => e.key)
      ∘ (fun k => (⟨k, f k, none⟩ : Entry α))) = id := rfl
  refine ⟨by rw [hfill]; rfl, by rw [hfill], ?_, by rw [hfill], ?_,
    by rw [hfill]; rfl⟩
  · rw [hfill]
    show (ks.reverse.map (fun k => (⟨k, f k, none⟩ : Entry α))).length = ks.length
    simp
  · rw [hfill]
    show (ks.reverse.map (fun k => (⟨k, f k, none⟩ : Entry α))).map (fun e => e.key)
      = ks.reverse
    rw [List.map_map, hid, List.map_id]

theorem lru_evicts_first_inserted (k0 klast : String) (rest : List String)
    (f : String → α) (h1 : (k0 :: (rest ++ [klast])).Nodup) :
    keys (setMany (new (α := α) [WithMaxEntries ((rest.length + 1 : Nat) : Int)])
        (k0 :: rest ++ [klast]) f) = klast :: rest.reverse
    ∧ k0 ∉ keys (setMany (new (α := α)
        [WithMaxEntries ((rest.length + 1 : Nat) : Int)])
        (k0 :: rest ++ [klast]) f)
    ∧ (setMany (new (α := α) [WithMaxEntries ((rest.length + 1 : Nat) : Int)])
        (k0 :: rest ++ [klast]) f).evictions = 1 := by
  obtain ⟨hk0n, happ⟩ := List.nodup_cons.mp h1
  have hk0r : k0 ∉ rest := fun hm => hk0n (List.mem_append_left _ hm)
  have hk0l : k0 ≠ klast :=
    fun hm => hk0n (List.mem_append_right _ (hm ▸ List.mem_singleton_self _))
  obtain ⟨hrnd, -, hrdisj⟩ := List.nodup_append.mp happ
  have hlr : klast ∉ rest := fun hm => hrdisj hm (List.mem_singleton_self _)
  have hfillnd : (k0 :: rest).Nodup := List.nodup_cons.mpr ⟨hk0r, hrnd⟩
  obtain ⟨hev, hmax, hlenl, hll, hkeys, -⟩ :=
    fill_facts (k0 :: rest) f (rest.length + 1) hfillnd (by simp)
  have hllc : (setMany (new (α := α)
      [WithMaxEntries ((rest.length + 1 : Nat) : Int)]) (k0 :: rest) f).ll
      = rest.reverse.map (fun k => (⟨k, f k, none⟩ : Entry α))
        ++ [⟨k0, f k0, none⟩] := by
    rw [hll]
    simp [List.reverse_cons]
  have hkeysc : keys (setMany (new (α := α)
      [WithMaxEntries ((rest.length + 1 : Nat) : Int)]) (k0 :: rest) f)
      = rest.reverse ++ [k0] := by
    rw [hkeys]
    simp [List.reverse_cons]
  have hsplit : setMany (new (α := α)
      [WithMaxEntries ((rest.length + 1 : Nat) : Int)]) (k0 :: rest ++ [klast]) f
      = set (setMany (new (α := α)
          [WithMaxEntries ((rest.length + 1 : Nat) : Int)]) (k0 :: rest) f)
        klast (f klast) 0 0 := by
    have hli : k0 :: rest ++ [klast] = (k0 :: rest) ++ [klast] := rfl
    rw [hli, setMany_append, setMany_cons, setMany_nil]
  have hfind : findEntry (setMany (new (α := α)
      [WithMaxEntries ((rest.length + 1 : Nat) : Int)]) (k0 :: rest) f) klast
      = none := by
    rw [findEntry_eq_none_iff, hkeysc]
    simp only [List.mem_append, List.mem_reverse, List.mem_singleton, not_or]
    exact ⟨hlr, Ne.symm hk0l⟩
  have hcond : 0 < (setMany (new (α := α)
        [WithMaxEntries ((rest.length + 1 : Nat) : Int)]) (k0 :: rest) f).maxEntries
      ∧ (setMany (new (α := α)
        [WithMaxEntries ((rest.length + 1 : Nat) : Int)]) (k0 :: rest) f).maxEntries
        ≤ ((setMany (new (α := α)
          [WithMaxEntries ((rest.length + 1 : Nat) : Int)]) (k0 :: rest) f).ll.length
            : Int) := by
    rw [hmax, hlenl]
    constructor
    · exact_mod_cast Nat.succ_pos rest.length
    · simp
  have hstep := set_absent_full _ klast (f klast) 0 0 hfind hcond
  rw [evictLRU_concat _ _ _ hllc, computeExpiry_nonpos 0 0 le_rfl] at hstep
  have hid : ((fun (e : Entry α) => e.key)
      ∘ (fun k => (⟨k, f k, none⟩ : Entry α))) = id := rfl
  have hkeysfin : keys (setMany (new (α := α)
      [WithMaxEntries ((rest.length + 1 : Nat) : Int)])
      (k0 :: rest ++ [klast]) f) = klast :: rest.reverse := by
    rw [hsplit, hstep]
    show klast :: (rest.reverse.map
        (fun k => (⟨k, f k, none⟩ : Entry α))).map (fun e => e.key)
      = klast :: rest.reverse
    rw [List.map_map, hid, List.map_id]
  refine ⟨hkeysfin, ?_, ?_⟩
  · rw [hkeysfin]
    simp only [List.mem_cons, List.mem_reverse, not_or]
    exact ⟨hk0l, hk0r⟩
  · rw [hsplit, hstep]
    show (setMany (new (α := α)
        [WithMaxEntries ((rest.length + 1 : Nat) : Int)]) (k0 :: rest) f).evictions
        + 1 = 1
    rw [hev]

theorem lru_touch_protects (k0 k1 klast : String) (rest2 : List String)
    (f : String → α) (h2 : (k0 :: k1 :: (rest2 ++ [klast])).Nodup) :
    keys (set ((get (setMany (new (α := α)
        [WithMaxEntries ((rest2.length + 2 : Nat) : Int)])
        (k0 :: k1 :: rest2) f) k0 0).2) klast (f klast) 0 0)
      = klast :: k0 :: rest2.reverse
    ∧ k1 ∉ keys (set ((get (setMany (new (α := α)
        [WithMaxEntries ((rest2.length + 2 : Nat) : Int)])
        (k0 :: k1 :: rest2) f) k0 0).2) klast (f klast) 0 0)
    ∧ (set ((get (setMany (new (α := α)
        [WithMaxEntries ((rest2.length + 2 : Nat) : Int)])
        (k0 :: k1 :: rest2) f) k0 0).2) klast (f klast) 0 0).evictions = 1 := by
  obtain ⟨hk0n, h2a⟩ := List.nodup_cons.mp h2
  obtain ⟨hk1n, happ⟩ := List.nodup_cons.mp h2a
  obtain ⟨hrnd, -, hrdisj⟩ := List.nodup_append.mp happ
  have hk0k1 : k0 ≠ k1 := fun hh => hk0n (hh ▸ List.mem_cons_self _ _)
  have hk0r : k0 ∉ rest2 :=
    fun hm => hk0n (List.mem_cons_of_mem _ (List.mem_append_left _ hm))
  have hk0l : k0 ≠ klast := fun hh => hk0n (List.mem_cons_of_mem _
    (List.mem_append_right _ (hh ▸ List.mem_singleton_self _)))
  have hk1r : k1 ∉ rest2 := fun hm => hk1n (List.mem_append_left _ hm)
  have hk1l : k1 ≠ klast :=
    fun hh => hk1n (List.mem_append_right _ (hh ▸ List.mem_singleton_self _))
  have hlr : klast ∉ rest2 := fun hm => hrdisj hm (List.mem_singleton_self _)
  have hfillnd : (k0 :: k1 :: rest2).Nodup := by
    refine List.nodup_cons.mpr ⟨?_, List.nodup_cons.mpr ⟨hk1r, hrnd⟩⟩
    simp only [List.mem_cons, not_or]
    exact ⟨hk0k1, hk0r⟩
  obtain ⟨hev, hmax, hlenl, hll, hkeys, -⟩ :=
    fill_facts (k0 :: k1 :: rest2) f (rest2.length + 2) hfillnd (by simp)
  have hid : ((fun (e : Entry α) => e.key)
      ∘ (fun k => (⟨k, f k, none⟩ : Entry α))) = id := rfl
  have hllm : (setMany (new (α := α)
      [WithMaxEntries ((rest2.length + 2 : Nat) : Int)])
      (k0 :: k1 :: rest2) f).ll
      = (rest2.reverse.map (fun k => (⟨k, f k, none⟩ : Entry α))
          ++ [⟨k1, f k1, none⟩]) ++ [⟨k0, f k0, none⟩] := by
    rw [hll]
    simp [List.reverse_cons]
  have hMkey : ∀ x ∈ rest2.reverse.map (fun k => (⟨k, f k, none⟩ : Entry α))
      ++ [(⟨k1, f k1, none⟩ : Entry α)], x.key ≠ k0 := by
    intro x hx
    rcases List.mem_append.mp hx with hx1 | hx2
    · obtain ⟨km, hkm, rfl⟩ := List.mem_map.mp hx1
      exact fun hh => hk0r (hh ▸ List.mem_reverse.mp hkm)
    · rw [List.mem_singleton.mp hx2]
      exact Ne.symm hk0k1
  have hfind0 : findEntry (setMany (new (α := α)
      [WithMaxEntries ((rest2.length + 2 : Nat) : Int)])
      (k0 :: k1 :: rest2) f) k0 = some ⟨k0, f k0, none⟩ := by
    rw [findEntry, hllm, List.find?_append]
    have hMnone : List.find? (fun e => e.key == k0)
        (rest2.reverse.map (fun k => (⟨k, f k, none⟩ : Entry α))
          ++ [⟨k1, f k1, none⟩]) = none := by
      rw [List.find?_eq_none]
      intro x hx
      simp only [beq_iff_eq]
      exact hMkey x hx
    rw [hMnone, Option.none_or]
    exact List.find?_cons_of_pos _ (by simp)
  have hexp0 : ¬(isExpired (⟨k0, f k0, none⟩ : Entry α) 0 = true) := by
    simp [isExpired]
  have hfltr : (setMany (new (α := α)
      [WithMaxEntries ((rest2.length + 2 : Nat) : Int)])
      (k0 :: k1 :: rest2) f).ll.filter (fun x => x.key != k0)
      = rest2.reverse.map (fun k => (⟨k, f k, none⟩ : Entry α))
          ++ [⟨k1, f k1, none⟩] := by
    rw [hllm, List.filter_append]
    have hflt1 : (rest2.reverse.map (fun k => (⟨k, f k, none⟩ : Entry α))
        ++ [(⟨k1, f k1, none⟩ : Entry α)]).filter (fun x => x.key != k0)
        = rest2.reverse.map (fun k => (⟨k, f k, none⟩ : Entry α))
          ++ [⟨k1, f k1, none⟩] := by
      refine List.filter_eq_self.mpr ?_
      intro a ha
      simp only [bne_iff_ne, ne_eq]
      exact hMkey a ha
    have hflt2 : ([(⟨k0, f k0, none⟩ : Entry α)]).filter
        (fun x => x.key != k0) = [] := by
      simp
    rw [hflt1, hflt2, List.append_nil]
  have hgll : (get (setMany (new (α := α)
      [WithMaxEntries ((rest2.length + 2 : Nat) : Int)])
      (k0 :: k1 :: rest2) f) k0 0).2.ll
      = (⟨k0, f k0, none⟩ :: rest2.reverse.map
          (fun k => (⟨k, f k, none⟩ : Entry α))) ++ [⟨k1, f k1, none⟩] := by
    simp only [get, hfind0, isExpired, Bool.false_eq_true, if_false]
    rw [hfltr]
    rfl
  have hgmax : (get (setMany (new (α := α)
      [WithMaxEntries ((rest2.length + 2 : Nat) : Int)])
      (k0 :: k1 :: rest2) f) k0 0).2.maxEntries
      = ((rest2.length + 2 : Nat) : Int) := by
    simp only [get, hfind0, isExpired, Bool.false_eq_true, if_false]
    exact hmax
  have hgev : (get (setMany (new (α := α)
      [WithMaxEntries ((rest2.length + 2 : Nat) : Int)])
      (k0 :: k1 :: rest2) f) k0 0).2.evictions = 0 := by
    simp only [get, hfind0, isExpired, Bool.false_eq_true, if_false]
    exact hev
  have hkeysg : keys (get (setMany (new (α := α)
      [WithMaxEntries ((rest2.length + 2 : Nat) : Int)])
      (k0 :: k1 :: rest2) f) k0 0).2
      = (k0 :: rest2.reverse) ++ [k1] := by
    rw [keys, hgll]
    simp only [List.map_append, List.map_cons, List.map_map, hid, List.map_id]
    rfl
  have hfindk : findEntry (get (setMany (new (α := α)
      [WithMaxEntries ((rest2.length + 2 : Nat) : Int)])
      (k0 :: k1 :: rest2) f) k0 0).2 klast = none := by
    rw [findEntry_eq_none_iff, hkeysg]
    simp only [List.mem_append, List.mem_cons, List.mem_reverse,
      List.mem_singleton, not_or]
    exact ⟨⟨Ne.symm hk0l, hlr⟩, Ne.symm hk1l, List.not_mem_nil klast⟩
  have hglen : (get (setMany (new (α := α)
      [WithMaxEntries ((rest2.length + 2 : Nat) : Int)])
      (k0 :: k1 :: rest2) f) k0 0).2.ll.length = rest2.length + 2 := by
    rw [hgll]
    simp
  have hcondk : 0 < (get (setMany (new (α := α)
        [WithMaxEntries ((rest2.length + 2 : Nat) : Int)])
        (k0 :: k1 :: rest2) f) k0 0).2.maxEntries
      ∧ (get (setMany (new (α := α)
        [WithMaxEntries ((rest2.length + 2 : Nat) : Int)])
        (k0 :: k1 :: rest2) f) k0 0).2.maxEntries
        ≤ ((get (setMany (new (α := α)
          [WithMaxEntries ((rest2.length + 2 : Nat) : Int)])
          (k0 :: k1 :: rest2) f) k0 0).2.ll.length : Int) := by
    rw [hgmax, hglen]
    constructor
    · exact_mod_cast Nat.succ_pos (rest2.length + 1)
    · simp
  have hstep := set_absent_full _ klast (f klast) 0 0 hfindk hcondk
  rw [evictLRU_concat _ _ _ hgll, computeExpiry_nonpos 0 0 le_rfl] at hstep
  have hkeysfin : keys (set ((get (setMany (new (α := α)
      [WithMaxEntries ((rest2.length + 2 : Nat) : Int)])
      (k0 :: k1 :: rest2) f) k0 0).2) klast (f klast) 0 0)
      = klast :: k0 :: rest2.reverse := by
    rw [hstep]
    show klast :: ((⟨k0, f k0, none⟩ :: rest2.reverse.map
        (fun k => (⟨k, f k, none⟩ : Entry α))).map (fun e => e.key))
      = klast :: k0 :: rest2.reverse
    simp only [List.map_cons, List.map_map, hid, List.map_id]
  refine ⟨hkeysfin, ?_, ?_⟩
  · rw [hkeysfin]
    simp only [List.mem_cons, List.mem_reverse, not_or]
    exact ⟨hk1l, Ne.symm hk0k1, hk1r⟩
  · rw [hstep]
    show (get (setMany (new (α := α)
        [WithMaxEntries ((rest2.length + 2 : Nat) : Int)])
        (k0 :: k1 :: rest2) f) k0 0).2.evictions + 1 = 1
    rw [hgev]

/-- C3: LRU eviction order. (i) Inserting `n + 1` distinct keys
(`k0 :: rest ++ [klast]`, with `maxEntries = n = rest.length + 1`) with no
intervening reads evicts exactly the first-inserted key `k0`.
(ii) Touching the oldest key `k0` via `Get` before the last insert
protects it: the next-oldest key `k1` is evicted instead
(`maxEntries = rest2.length + 2`). (iii) Concretely with
`maxEntries = 2`: Set("a",1), Set("b",2), Get("a"), Set("c",3) leaves
"a" and "c" retrievable, makes Get("b") a miss, and counts exactly one
eviction. -/
theorem lru_order (k0 k1 klast : String) (rest rest2 : List String)
    (f : String → α)
    (h1 : (k0 :: (rest ++ [klast])).Nodup)
    (h2 : (k0 :: k1 :: (rest2 ++ [klast])).Nodup) :
    (keys (setMany (new (α := α)
        [WithMaxEntries ((rest.length + 1 : Nat) : Int)])
        (k0 :: rest ++ [klast]) f) = klast :: rest.reverse
      ∧ k0 ∉ keys (setMany (new (α := α)
          [WithMaxEntries ((rest.length + 1 : Nat) : Int)])
          (k0 :: rest ++ [klast]) f)
      ∧ (setMany (new (α := α)
          [WithMaxEntries ((rest.length + 1 : Nat) : Int)])
          (k0 :: rest ++ [klast]) f).evictions = 1)
    ∧ (keys (set ((get (setMany (new (α := α)
          [WithMaxEntries ((rest2.length + 2 : Nat) : Int)])
          (k0 :: k1 :: rest2) f) k0 0).2) klast (f klast) 0 0)
        = klast :: k0 :: rest2.reverse
      ∧ k1 ∉ keys (set ((get (setMany (new (α := α)
          [WithMaxEntries ((rest2.length + 2 : Nat) : Int)])
          (k0 :: k1 :: rest2) f) k0 0).2) klast (f klast) 0 0)
      ∧ (set ((get (setMany (new (α := α)
          [WithMaxEntries ((rest2.length + 2 : Nat) : Int)])
          (k0 :: k1 :: rest2) f) k0 0).2) klast (f klast) 0 0).evictions = 1)
    ∧ ((get exCacheC "b" 0).1 = none
      ∧ (get exCacheC "a" 0).1 = some 1
      ∧ (get exCacheC "c" 0).1 = some 3
      ∧ (stats exCacheC).2.2 = 1) :=
  ⟨lru_evicts_first_inserted k0 klast rest f h1,
    lru_touch_protects k0 k1 klast rest2 f h2,
    by decide, by decide, by decide, by decide⟩

/-- Witness for C3 at a concrete input: keys a, b, c with capacity 2. -/
theorem lru_order_witness :
    (("a" :: (["b"] ++ ["c"])).Nodup ∧ ("a" :: "b" :: ([] ++ ["c"])).Nodup)
    ∧ ((keys (setMany (new (α := Nat)
          [WithMaxEntries ((List.length ["b"] + 1 : Nat) : Int)])
          ("a" :: ["b"] ++ ["c"]) (fun _ => 0)) = "c" :: List.reverse ["b"]
        ∧ "a" ∉ keys (setMany (new (α := Nat)
            [WithMaxEntries ((List.length ["b"] + 1 : Nat) : Int)])
            ("a" :: ["b"] ++ ["c"]) (fun _ => 0))
        ∧ (setMany (new (α := Nat)
            [WithMaxEntries ((List.length ["b"] + 1 : Nat) : Int)])
            ("a" :: ["b"] ++ ["c"]) (fun _ => 0)).evictions = 1)
      ∧ (keys (set ((get (setMany (new (α := Nat)
            [WithMaxEntries ((List.length ([] : List String) + 2 : Nat) : Int)])
            ("a" :: "b" :: ([] : List String)) (fun _ => 0)) "a" 0).2)
            "c" ((fun _ => 0) "c") 0 0)
          = "c" :: "a" :: List.reverse ([] : List String)
        ∧ "b" ∉ keys (set ((get (setMany (new (α := Nat)
            [WithMaxEntries ((List.length ([] : List String) + 2 : Nat) : Int)])
            ("a" :: "b" :: ([] : List String)) (fun _ => 0)) "a" 0).2)
            "c" ((fun _ => 0) "c") 0 0)
        ∧ (set ((get (setMany (new (α := Nat)
            [WithMaxEntries ((List.length ([] : List String) + 2 : Nat) : Int)])
            ("a" :: "b" :: ([] : List String)) (fun _ => 0)) "a" 0).2)
            "c" ((fun _ => 0) "c") 0 0).evictions = 1)
      ∧ ((get exCacheC "b" 0).1 = none
        ∧ (get exCacheC "a" 0).1 = some 1
        ∧ (get exCacheC "c" 0).1 = some 3
        ∧ (stats exCacheC).2.2 = 1)) :=
  ⟨⟨by decide, by decide⟩,
    lru_order "a" "b" "c" ["b"] [] (fun _ => 0) (by decide) (by decide)⟩

end TempusCache
